import Mathlib

/-!
Verification development for the tool-call extraction and dispatch loop of the
JOI conversational-agent repository.

The definitions below are a shallow embedding of the Python source:

* `src/tools/tool_registry.py` — `ToolRegistry.extract_tool_calls` and
  `ToolRegistry.execute`.  Python strings are modelled as `List Char`
  (Python indexes by code point).  The registered detection patterns all have
  the shape `\[TAG:\s*([^\]]+)\]` (or `([^\]]*)` for `sysinfo`), so regular
  expression matching is embedded by `scanMatches`, which reproduces
  `re.finditer` for exactly this family of patterns: a literal `[TAG:` head,
  then everything up to the first `]`, the capture group being the content
  with the leading run of whitespace taken by the greedy `\s*` (with Python's
  backtracking behaviour for the one-or-more variant on all-whitespace
  content).  A pattern string that does not compile is modelled by the
  `Pattern.malformed` constructor, for which matching raises `re.error`
  (the code catches it per descriptor and skips the tool).
* `src/api_server.py` — `process_message_with_model_internal` (OpenAI path)
  and `process_openai_tool_calls_for_websocket`.  The external model backend
  is a parameter `backend : List Msg → String`; websocket emissions other
  than the final limit warning do not affect the conversation state and are
  not modelled; the warning is modelled as a notice counter.
* Handlers are external collaborators: a handler is a function from its
  argument list to either a returned string or a raised exception
  (`HandlerRes.raised`), which `execute` catches.

Bounded recursions are written with an explicit fuel argument equal to the
quantity the Python loop consumes (remaining characters, remaining allowed
tool batches) so that every definition is executable by `decide`.
-/

/-- Python whitespace (`str.strip`, and `\s` in the registered patterns),
restricted to the ASCII whitespace characters. -/
def isSpaceChar (c : Char) : Bool :=
  c = ' ' || c = '\t' || c = '\n' || c = '\r' || c = '\x0b' || c = '\x0c'

/-- Python `str.strip()` on a list of characters. -/
def pyStrip (l : List Char) : List Char :=
  ((l.dropWhile isSpaceChar).reverse.dropWhile isSpaceChar).reverse

/-- Python `s.split(sep, 1)`: split at the first occurrence of `sep`.
Only used after membership of `sep` has been checked, as in the source. -/
def splitOnceChar (sep : Char) : List Char → List Char × List Char
  | [] => ([], [])
  | c :: rest =>
    if c = sep then ([], rest)
    else
      let p := splitOnceChar sep rest
      (c :: p.1, p.2)

/-- Rendering of an optional string inside a Python f-string:
`None` renders as the four characters `None`. -/
def optStr : Option String → String
  | none => ("None")
  | some s => s

/-- Python `str.upper()` (ASCII). -/
def pyUpper (s : String) : String :=
  ⟨s.data.map Char.toUpper⟩

/-- Python `str.capitalize()`: first character upper-cased, rest lower-cased. -/
def pyCapitalize (s : String) : String :=
  match s.data with
  | [] => ("")
  | c :: rest => ⟨c.toUpper :: rest.map Char.toLower⟩

/-- A registered detection pattern.  Every pattern registered in
`src/tools/__init__.py` is `\[TAG:\s*([^\]]+)\]`, or `\[SYSINFO:\s*([^\]]*)\]`
for `sysinfo` (`allowEmpty = true`).  `malformed` stands for a pattern string
that fails to compile, making `re.finditer` raise `re.error`. -/
inductive Pattern where
  | marker (tag : List Char) (allowEmpty : Bool)
  | malformed
  deriving DecidableEq

/-- Whether a pattern is the malformed one. -/
def Pattern.isMal : Pattern → Bool
  | Pattern.malformed => true
  | _ => false

/-- One regex match: `start()`, `end()` and `group(1)` of a Python match
object, positions counted in code points of the scanned text. -/
structure REMatch where
  mstart : Nat
  mstop : Nat
  group1 : List Char
  deriving DecidableEq

/-- Index of the first `]` in a list, as `re` uses it to end a
`[^\]]*\]` match. -/
def idxOfClose : List Char → Option Nat
  | [] => none
  | c :: rest => if c = ']' then some 0 else (idxOfClose rest).map (· + 1)

/-- The literal head `[TAG:` of a registered pattern. -/
def markerHead (tag : List Char) : List Char :=
  '[' :: (tag ++ [':'])

/-- `group(1)` of a match of `\[TAG:\s*([^\]]+)\]` (resp. `...*...`) whose
bracket-delimited content is `content`: the greedy `\s*` takes the leading
whitespace; for the one-or-more variant on all-whitespace content the engine
backtracks so that the group keeps the last character. -/
def pyGroup1 (allowEmpty : Bool) (content : List Char) : List Char :=
  let g := content.dropWhile isSpaceChar
  if allowEmpty then g
  else if g = [] then content.drop (content.length - 1)
  else g

/-- `re.finditer` for the pattern `\[TAG:\s*([^\]]+)\]` (or the `*` variant):
scan left to right; at each position try the literal head, then read up to
the first `]`; on success emit a match and continue after it, otherwise
advance one character.  The fuel argument is the length of the remaining
text, which bounds the number of steps. -/
def scanAux (tag : List Char) (allowEmpty : Bool) : Nat → List Char → Nat → List REMatch
  | 0, _, _ => []
  | fuel + 1, l, pos =>
    match l with
    | [] => []
    | c :: rest =>
      if (markerHead tag).isPrefixOf (c :: rest) then
        match idxOfClose ((c :: rest).drop (tag.length + 2)) with
        | some k =>
          if k = 0 ∧ allowEmpty = false then
            scanAux tag allowEmpty fuel rest (pos + 1)
          else
            ⟨pos, pos + (tag.length + 2 + k + 1),
              pyGroup1 allowEmpty (((c :: rest).drop (tag.length + 2)).take k)⟩ ::
              scanAux tag allowEmpty fuel ((c :: rest).drop (tag.length + 2 + k + 1))
                (pos + (tag.length + 2 + k + 1))
        | none => scanAux tag allowEmpty fuel rest (pos + 1)
      else
        scanAux tag allowEmpty fuel rest (pos + 1)

/-- All matches of a marker pattern in a text, in scan order. -/
def scanMatches (tag : List Char) (allowEmpty : Bool) (text : List Char) : List REMatch :=
  scanAux tag allowEmpty text.length text 0

/-- The placeholder token `"[#MATCHED#]"` of `extract_tool_calls`. -/
def phChars : List Char :=
  ("[#MATCHED#]").data

/-- Python `"[#MATCHED#]" * n`. -/
def phRun : Nat → List Char
  | 0 => []
  | n + 1 => phChars ++ phRun n

/-- One step of Python `str.replace(pat, "")` with explicit fuel:
replace every occurrence of `pat`, left to right, by the empty string. -/
def replaceEmptyAux (pat : List Char) : Nat → List Char → List Char
  | 0, l => l
  | fuel + 1, l =>
    match l with
    | [] => []
    | c :: rest =>
      if pat.isPrefixOf (c :: rest) then
        replaceEmptyAux pat fuel ((c :: rest).drop pat.length)
      else
        c :: replaceEmptyAux pat fuel rest

/-- Python `l.replace(pat, "")`. -/
def replaceEmpty (pat : List Char) (l : List Char) : List Char :=
  if pat.isEmpty then l else replaceEmptyAux pat l.length l

/-- The `new_processed_text` built by the match loop of `extract_tool_calls`
(lines 113–133): text before each match, then `"[#MATCHED#]" * len(group(0))`,
then the text after the last match. -/
def buildMasked (text : List Char) : Nat → List REMatch → List Char
  | lastEnd, [] => text.drop lastEnd
  | lastEnd, m :: ms =>
    (text.drop lastEnd).take (m.mstart - lastEnd) ++
      (phRun (m.mstop - m.mstart) ++ buildMasked text m.mstop ms)

/-- Comparison definition for the amended claim C2, following the spec's
intent restated for what the code actually does: the concatenation of the
segments of the working text outside the matched spans, i.e. the text with
every matched span deleted. -/
def removeSpans (text : List Char) : Nat → List REMatch → List Char
  | lastEnd, [] => text.drop lastEnd
  | lastEnd, m :: ms =>
    (text.drop lastEnd).take (m.mstart - lastEnd) ++ removeSpans text m.mstop ms

/-- The working text after one descriptor has been processed: the masked
text with all placeholder tokens removed
(`processed_text = new_processed_text.replace("[#MATCHED#]", "")`,
line 134 of `tool_registry.py`). -/
def maskStep (tag : List Char) (allowEmpty : Bool) (text : List Char) : List Char :=
  replaceEmpty phChars (buildMasked text 0 (scanMatches tag allowEmpty text))

/-- Result of calling an external tool handler: a returned string or a
raised exception. -/
inductive HandlerRes where
  | ok (res : String)
  | raised
  deriving DecidableEq

/-- An external tool handler, called with its (one or two) string arguments. -/
def Handler : Type :=
  List String → HandlerRes

/-- One registered tool, in the order of the arguments of
`ToolRegistry.register(name, function, pattern, priority)`.  The registry is
the insertion-ordered list of these entries (Python dicts preserve insertion
order). -/
structure ToolEntry where
  name : String
  fn : Handler
  pattern : Pattern
  priority : Int

/-- Entries whose pattern compiles. -/
def notMal (d : ToolEntry) : Bool :=
  !(Pattern.isMal d.pattern)

/-- Stable insertion into a priority-sorted list: an element is placed after
every element with a strictly smaller priority and before equal priorities
inserted later, matching the stability of Python `sorted`. -/
def insertDesc (d : ToolEntry) : List ToolEntry → List ToolEntry
  | [] => [d]
  | e :: es =>
    if e.priority < d.priority then e :: insertDesc d es
    else d :: e :: es

/-- `sorted(self.patterns.items(), key=lambda item: self.priorities.get(...))`:
a stable sort of the registry by ascending priority. -/
def sortDescs : List ToolEntry → List ToolEntry
  | [] => []
  | d :: ds => insertDesc d (sortDescs ds)

/-- The descriptor loop of `extract_tool_calls` (lines 109–139): for each
tool in priority order, find all matches in the current working text, record
`(name, group(1).strip())` for each, then mask the working text; a pattern
that fails to compile is skipped (`except re.error: continue`). -/
def extractGo : List ToolEntry → List Char → List (String × String)
  | [], _ => []
  | d :: rest, ptext =>
    match d.pattern with
    | Pattern.malformed => extractGo rest ptext
    | Pattern.marker tag ae =>
      (scanMatches tag ae ptext).map (fun m => (d.name, (⟨pyStrip m.group1⟩ : String))) ++
        extractGo rest (maskStep tag ae ptext)

/-- `ToolRegistry.extract_tool_calls` (lines 96–143). -/
def extract_tool_calls (reg : List ToolEntry) (text : List Char) : List (String × String) :=
  extractGo (sortDescs reg) text

/-- The registry annotated with registration indices `i, i + 1, ...`: the
position of each tool in registration order. -/
def enumFrom (i : Nat) : List ToolEntry → List (Nat × ToolEntry)
  | [] => []
  | d :: ds => (i, d) :: enumFrom (i + 1) ds

/-- Stable insertion into a priority-sorted index-annotated list, with the
same comparison as `insertDesc` on the carried entry. -/
def insertDescI (x : Nat × ToolEntry) : List (Nat × ToolEntry) → List (Nat × ToolEntry)
  | [] => [x]
  | e :: es =>
    if e.2.priority < x.2.priority then e :: insertDescI x es
    else x :: e :: es

/-- The stable priority sort on the index-annotated registry; forgetting
the indices gives `sortDescs`. -/
def sortDescsI : List (Nat × ToolEntry) → List (Nat × ToolEntry)
  | [] => []
  | d :: ds => insertDescI d (sortDescsI ds)

/-- Lexicographic order on index-annotated descriptors: strictly smaller
priority, or equal priority and strictly smaller registration index.  The
stable sort arranges the annotated registry in this order. -/
def lexPI (a b : Nat × ToolEntry) : Prop :=
  a.2.priority < b.2.priority ∨ (a.2.priority = b.2.priority ∧ a.1 < b.1)

/-- The descriptor loop of `extract_tool_calls`, additionally recording the
priority and the registration index of the descriptor that produced each
call (used to state the output ordering, including the tie-break between
distinct tools of equal priority). -/
def extractGoPI : List (Nat × ToolEntry) → List Char → List (String × String × Int × Nat)
  | [], _ => []
  | d :: rest, ptext =>
    match d.2.pattern with
    | Pattern.malformed => extractGoPI rest ptext
    | Pattern.marker tag ae =>
      (scanMatches tag ae ptext).map
          (fun m => (d.2.name, (⟨pyStrip m.group1⟩ : String), d.2.priority, d.1)) ++
        extractGoPI rest (maskStep tag ae ptext)

/-- `extract_tool_calls` with the producing descriptor's priority and
registration index attached to each call. -/
def extractPrioIdx (reg : List ToolEntry) (text : List Char) :
    List (String × String × Int × Nat) :=
  extractGoPI (sortDescsI (enumFrom 0 reg)) text

/-- `self.tools` lookup: `tool_type not in self.tools` is `findTool = none`. -/
def findTool (reg : List ToolEntry) (tool_type : String) : Option ToolEntry :=
  reg.find? (fun d => d.name == tool_type)

/-- The caught-exception message of `execute` (line 93). -/
def errCaught (tool_type : String) : String :=
  ("Error: An unexpected error occurred while executing tool '") ++ tool_type ++ ("'. Check logs.")

/-- Calling a handler inside the `try` of `execute`: a raised exception is
caught and converted to the error text naming the tool. -/
def runHandler (tool_type : String) (fn : Handler) (args : List String) : String :=
  match fn args with
  | HandlerRes.ok r => r
  | HandlerRes.raised => errCaught tool_type

/-- The usage error of `execute` for the two-argument tools (lines 50–51). -/
def invalidArgsMsg (tool_type : String) (tool_argument : Option String) : String :=
  ("Error: Invalid arguments for ") ++ tool_type ++ (". Usage: [") ++
    pyUpper tool_type ++ (": ") ++
    (if tool_type = ("fs_write") then ("path/file.txt | content")
     else ("start_path | *.pattern")) ++
    ("]. Got: '") ++ optStr tool_argument ++ ("'")

/-- The empty-path error of `execute` (line 58). -/
def emptyPathMsg (tool_type : String) : String :=
  ("Error: Path/start_path argument cannot be empty for ") ++ tool_type ++ (".")

/-- The missing-argument error of `execute` (line 78). -/
def missingArgMsg (tool_type : String) : String :=
  ("Error: Missing argument for tool ") ++ tool_type ++ (".")

/-- The unknown-tool message of `execute` (line 40). -/
def unknownToolMsg (tool_type : String) : String :=
  ("Unknown tool type: ") ++ tool_type

/-- `ToolRegistry.execute` (lines 34–93).  `fs_write` and `fs_find` split
their raw argument at the first `|` into two stripped fields; `sysinfo`
defaults a falsy argument to `"basic"`; every other tool requires the
argument to be present (`is not None`) and passes it through unchanged.
A handler exception is caught and rendered as `errCaught`. -/
def execute (reg : List ToolEntry) (tool_type : String) (tool_argument : Option String) : String :=
  match findTool reg tool_type with
  | none => unknownToolMsg tool_type
  | some d =>
    if tool_type = ("fs_write") ∨ tool_type = ("fs_find") then
      match tool_argument with
      | none => invalidArgsMsg tool_type none
      | some raw =>
        if (raw.data.contains '|') = false then invalidArgsMsg tool_type (some raw)
        else
          let parts := splitOnceChar '|' raw.data
          let arg1 := pyStrip parts.1
          let arg2 := pyStrip parts.2
          if arg1 = [] then emptyPathMsg tool_type
          else runHandler tool_type d.fn [(⟨arg1⟩ : String), (⟨arg2⟩ : String)]
    else
      let actual : Option String :=
        if tool_type = ("sysinfo") ∧ (tool_argument = none ∨ tool_argument = some ("")) then
          some ("basic")
        else tool_argument
      if tool_argument = none ∧ tool_type ≠ ("sysinfo") then missingArgMsg tool_type
      else runHandler tool_type d.fn [actual.getD ("")]

/-- One entry of the conversation history (`{"role": ..., "content": ...}`). -/
structure Msg where
  role : String
  content : String
  deriving DecidableEq

/-- Role adaptation for the OpenAI backend
(`process_message_with_model_internal`, lines 167–175). -/
def roleForOpenai (r : String) : String :=
  if r = ("human") then ("user")
  else if r = ("model") then ("assistant")
  else if r = ("tool") then ("system")
  else r

/-- The `llm_messages` list sent to the backend. -/
def toLlm (h : List Msg) : List Msg :=
  h.map (fun m => ⟨roleForOpenai m.role, m.content⟩)

/-- The tool-result history entry appended by
`process_openai_tool_calls_for_websocket` (lines 228–230). -/
def toolResultMsg (reg : List ToolEntry) (t v : String) : Msg :=
  ⟨("system"),
    pyCapitalize t ++ (" tool execution result for '") ++ v ++ ("':\n\n") ++
      execute reg t (some v)⟩

/-- `process_openai_tool_calls_for_websocket` (lines 218–231): extract the
calls of the response; if none, report no tool calls; otherwise execute each
in extraction order, appending one tool-result entry per call, and report
that tools ran. -/
def processToolBatch (reg : List ToolEntry) (ai_response : String) (history : List Msg) :
    List Msg × Bool :=
  let calls := extract_tool_calls reg ai_response.data
  if calls.isEmpty then (history, false)
  else (history ++ calls.map (fun c => toolResultMsg reg c.1 c.2), true)

/-- `MAX_CONSECUTIVE_TOOL_CALLS = 15` (`api_server.py` line 54). -/
def MAX_CONSECUTIVE_TOOL_CALLS : Nat :=
  15

/-- The `while has_tool_calls and tool_call_count < MAX_CONSECUTIVE_TOOL_CALLS`
loop of `process_message_with_model_internal` (lines 161–210), with the
backend as a parameter.  The fuel is `MAX - count`, the number of remaining
allowed iterations, so the `fuel = 0` case is the failed loop condition.
Returns the final history and `tool_call_count`. -/
def turnLoopFuel (backend : List Msg → String) (reg : List ToolEntry) :
    Nat → List Msg → Nat → List Msg × Nat
  | 0, hist, count => (hist, count)
  | fuel + 1, hist, count =>
    let resp := backend (toLlm hist)
    let h1 := hist ++ [⟨("assistant"), resp⟩]
    let pr := processToolBatch reg resp h1
    if pr.2 then turnLoopFuel backend reg fuel pr.1 (count + 1)
    else (pr.1, count)

/-- One full turn: append the user message
(`process_user_message_internal`, line 146), run the tool loop from count 0,
then emit the limit warning iff `tool_call_count == MAX_CONSECUTIVE_TOOL_CALLS`
(lines 212–216).  Returns (final history, batch count, number of
limit notices emitted). -/
def processTurn (backend : List Msg → String) (reg : List ToolEntry)
    (hist : List Msg) (userMsg : String) : List Msg × Nat × Nat :=
  let h0 := hist ++ [⟨("user"), userMsg⟩]
  let r := turnLoopFuel backend reg MAX_CONSECUTIVE_TOOL_CALLS h0 0
  (r.1, r.2, if r.2 = MAX_CONSECUTIVE_TOOL_CALLS then 1 else 0)

/-- A handler that returns an empty result, for concrete registries whose
handlers are irrelevant. -/
def okFn : Handler :=
  fun _ => HandlerRes.ok ("")

/-- The `app` tool of `src/tools/__init__.py`: pattern
`\[OPEN_APP:\s*([^\]]+)\]`, priority 10. -/
def appEntry : ToolEntry :=
  ⟨("app"), okFn, Pattern.marker (("OPEN_APP").data) false, 10⟩

/-- The `search` tool: pattern `\[SEARCH:\s*([^\]]+)\]`, priority 20. -/
def searchEntry : ToolEntry :=
  ⟨("search"), okFn, Pattern.marker (("SEARCH").data) false, 20⟩

/-- Whether `pat` occurs as a contiguous subsequence of a list (used to state
side conditions about the placeholder token). -/
def hasSeq (pat : List Char) : List Char → Bool
  | [] => pat.isEmpty
  | c :: rest => pat.isPrefixOf (c :: rest) || hasSeq pat rest

/-- A handler that returns its argument list joined by a pipe, so that the
arguments it was invoked with are observable in the result. -/
def echoFn : Handler :=
  fun args => HandlerRes.ok (String.intercalate ("|") args)

/-- A handler that raises an exception on every input. -/
def raiseFn : Handler :=
  fun _ => HandlerRes.raised

/-- The `fs_write` tool with an observable handler. -/
def fsWriteEntry : ToolEntry :=
  ⟨("fs_write"), echoFn, Pattern.marker (("FS_WRITE").data) false, 42⟩

/-- The `sysinfo` tool (the one pattern whose capture group may be empty). -/
def sysEntry : ToolEntry :=
  ⟨("sysinfo"), echoFn, Pattern.marker (("SYSINFO").data) true, 30⟩

/-- The `email` tool with an observable handler. -/
def echoEntry : ToolEntry :=
  ⟨("email"), echoFn, Pattern.marker (("EMAIL").data) false, 50⟩

/-- The `app` tool with a handler that always raises. -/
def raiseEntry : ToolEntry :=
  ⟨("app"), raiseFn, Pattern.marker (("OPEN_APP").data) false, 10⟩

/-- Two tools that share one priority, to probe the tie-break between
distinct tools of equal priority. -/
def eqAEntry : ToolEntry :=
  ⟨("a"), okFn, Pattern.marker (("A").data) false, 10⟩

/-- Second tool of the equal-priority pair, registered after `eqAEntry`. -/
def eqBEntry : ToolEntry :=
  ⟨("b"), okFn, Pattern.marker (("B").data) false, 10⟩

/-- A scripted backend whose every response requests an `app` tool call. -/
def backendW : List Msg → String :=
  fun _ => ("[OPEN_APP: x]")

set_option maxRecDepth 200000

theorem ph_ne : phChars ≠ [] := by decide

theorem ph_len : phChars.length = 11 := rfl

theorem hasSeq_iff (pat : List Char) : ∀ l, hasSeq pat l = true ↔ ∃ a b, l = a ++ (pat ++ b) := by
  intro l
  induction l with
  | nil =>
    simp only [hasSeq, List.isEmpty_iff]
    constructor
    · intro h
      exact ⟨[], [], by simp [h]⟩
    · rintro ⟨a, b, hab⟩
      rcases List.append_eq_nil.mp hab.symm with ⟨ha, hrest⟩
      exact (List.append_eq_nil.mp hrest).1
  | cons c rest ih =>
    simp only [hasSeq, Bool.or_eq_true, List.isPrefixOf_iff_prefix, ih]
    constructor
    · rintro (⟨t, ht⟩ | ⟨a, b, hab⟩)
      · exact ⟨[], t, by simp [ht]⟩
      · exact ⟨c :: a, b, by simp [hab]⟩
    · rintro ⟨a, b, hab⟩
      cases a with
      | nil =>
        left
        exact ⟨b, by simpa using hab.symm⟩
      | cons x a2 =>
        right
        rw [List.cons_append] at hab
        exact ⟨a2, b, (List.cons.injEq _ _ _ _).mp hab |>.2⟩

theorem hasSeq_of_infix (pat l1 l2 : List Char) (h : l1 <:+: l2) (ho : hasSeq pat l1 = true) :
    hasSeq pat l2 = true := by
  obtain ⟨s, t, hst⟩ := h
  obtain ⟨a, b, hab⟩ := (hasSeq_iff pat l1).mp ho
  refine (hasSeq_iff pat l2).mpr ⟨s ++ a, b ++ t, ?_⟩
  rw [← hst, hab]
  simp

theorem hasSeq_false_slice (pat text : List Char) (h : hasSeq pat text = false) (i j : Nat) :
    hasSeq pat ((text.drop i).take j) = false := by
  cases hx : hasSeq pat ((text.drop i).take j) with
  | false => rfl
  | true =>
    exfalso
    have hinf : (text.drop i).take j <:+: text :=
      (List.take_prefix _ _).isInfix.trans (List.drop_suffix _ _).isInfix
    have := hasSeq_of_infix pat _ text hinf hx
    rw [h] at this
    cases this

theorem hasSeq_false_drop (pat text : List Char) (h : hasSeq pat text = false) (i : Nat) :
    hasSeq pat (text.drop i) = false := by
  cases hx : hasSeq pat (text.drop i) with
  | false => rfl
  | true =>
    exfalso
    have := hasSeq_of_infix pat _ text (List.drop_suffix _ _).isInfix hx
    rw [h] at this
    cases this

theorem phNoOverlap : ∀ k, 1 ≤ k → k ≤ 10 → phChars.take k ≠ phChars.drop (11 - k) := by
  intro k h1 h2
  interval_cases k <;> decide

theorem replaceEmptyAux_nil (pat : List Char) : ∀ fuel, replaceEmptyAux pat fuel [] = [] := by
  intro fuel
  cases fuel <;> rfl

theorem replaceEmptyAux_congr (pat : List Char) (hp : pat ≠ []) :
    ∀ f1 f2 l, l.length ≤ f1 → l.length ≤ f2 →
      replaceEmptyAux pat f1 l = replaceEmptyAux pat f2 l := by
  intro f1
  induction f1 with
  | zero =>
    intro f2 l h1 h2
    have hl : l = [] := List.length_eq_zero.mp (Nat.le_zero.mp h1)
    subst hl
    rw [replaceEmptyAux_nil, replaceEmptyAux_nil]
  | succ f ih =>
    intro f2 l h1 h2
    cases l with
    | nil => rw [replaceEmptyAux_nil, replaceEmptyAux_nil]
    | cons c rest =>
      cases f2 with
      | zero => simp at h2
      | succ f2p =>
        have hplen : 1 ≤ pat.length := by
          cases hp2 : pat with
          | nil => exact absurd hp2 hp
          | cons x xs => simp [hp2]
        simp only [replaceEmptyAux]
        by_cases hpre : pat.isPrefixOf (c :: rest) = true
        · simp only [hpre, if_true]
          apply ih
          · simp only [List.length_drop, List.length_cons]
            simp only [List.length_cons] at h1
            omega
          · simp only [List.length_drop, List.length_cons]
            simp only [List.length_cons] at h2
            omega
        · simp only [Bool.not_eq_true] at hpre
          simp only [hpre, Bool.false_eq_true, if_false, List.cons.injEq, true_and]
          apply ih
          · simp only [List.length_cons] at h1
            omega
          · simp only [List.length_cons] at h2
            omega

theorem replaceEmpty_eq_aux (pat l : List Char) (hp : pat ≠ []) (fuel : Nat)
    (hf : l.length ≤ fuel) : replaceEmpty pat l = replaceEmptyAux pat fuel l := by
  unfold replaceEmpty
  have : pat.isEmpty = false := by
    cases hp2 : pat with
    | nil => exact absurd hp2 hp
    | cons x xs => rfl
  rw [this]
  simp only [Bool.false_eq_true, if_false]
  exact replaceEmptyAux_congr pat hp l.length fuel l le_rfl hf

theorem replaceEmptyAux_id (pat : List Char) :
    ∀ l fuel, hasSeq pat l = false → replaceEmptyAux pat fuel l = l := by
  intro l
  induction l with
  | nil => intro fuel h; exact replaceEmptyAux_nil pat fuel
  | cons c rest ih =>
    intro fuel h
    simp only [hasSeq, Bool.or_eq_false_iff] at h
    cases fuel with
    | zero => rfl
    | succ f =>
      simp only [replaceEmptyAux, h.1, Bool.false_eq_true, if_false, List.cons.injEq, true_and]
      exact ih f h.2

theorem replaceEmpty_id (pat l : List Char) (hp : pat ≠ []) (h : hasSeq pat l = false) :
    replaceEmpty pat l = l := by
  rw [replaceEmpty_eq_aux pat l hp l.length le_rfl]
  exact replaceEmptyAux_id pat l l.length h

theorem not_ph_pre (c : Char) (a2 x : List Char) (ha : hasSeq phChars (c :: a2) = false) :
    phChars.isPrefixOf ((c :: a2) ++ (phChars ++ x)) = false := by
  by_contra hcon
  simp only [Bool.not_eq_false] at hcon
  have hpre : phChars <+: ((c :: a2) ++ (phChars ++ x)) :=
    List.isPrefixOf_iff_prefix.mp hcon
  obtain ⟨t, ht⟩ := hpre
  have htake : phChars = ((c :: a2) ++ (phChars ++ x)).take 11 := by
    rw [← ht]
    rw [List.take_append_of_le_length (by rw [ph_len])]
    simp [List.take_of_length_le, ph_len.le]
  by_cases hlen : 11 ≤ (c :: a2).length
  · rw [List.take_append_of_le_length hlen] at htake
    have hocc : hasSeq phChars (c :: a2) = true := by
      refine (hasSeq_iff phChars (c :: a2)).mpr ⟨[], (c :: a2).drop 11, ?_⟩
      rw [htake]
      simp
    rw [ha] at hocc
    cases hocc
  · push_neg at hlen
    have hlen1 : 1 ≤ (c :: a2).length := by simp
    have hk1 : 1 ≤ 11 - (c :: a2).length := by omega
    have hk2 : 11 - (c :: a2).length ≤ 10 := by omega
    rw [List.take_append_eq_append_take] at htake
    rw [List.take_of_length_le (by omega)] at htake
    rw [List.take_append_of_le_length (by rw [ph_len]; omega)] at htake
    have hdrop : phChars.drop (c :: a2).length = phChars.take (11 - (c :: a2).length) := by
      conv_lhs => rw [htake]
      rw [List.drop_left]
    have hcontra := phNoOverlap (11 - (c :: a2).length) hk1 hk2
    apply hcontra
    rw [← hdrop]
    congr 1
    omega

theorem replaceEmptyAux_cons (pat : List Char) (fuel : Nat) (c : Char) (rest : List Char) :
    replaceEmptyAux pat (fuel + 1) (c :: rest) =
      if pat.isPrefixOf (c :: rest) = true then
        replaceEmptyAux pat fuel ((c :: rest).drop pat.length)
      else c :: replaceEmptyAux pat fuel rest := rfl

theorem replaceEmptyAux_ph_skip :
    ∀ a x fuel, hasSeq phChars a = false → (a ++ (phChars ++ x)).length ≤ fuel →
      replaceEmptyAux phChars fuel (a ++ (phChars ++ x)) = a ++ replaceEmptyAux phChars fuel x := by
  intro a
  induction a with
  | nil =>
    intro x fuel ha hf
    simp only [List.nil_append] at hf ⊢
    cases fuel with
    | zero =>
      exfalso
      simp [ph_len] at hf
    | succ f =>
      have hco : phChars ++ x = '[' :: ((("#MATCHED#]").data) ++ x) := by
        rw [show phChars = '[' :: ("#MATCHED#]").data from rfl]
        rfl
      rw [hco, replaceEmptyAux_cons]
      have hpre : phChars.isPrefixOf ('[' :: ((("#MATCHED#]").data) ++ x)) = true := by
        rw [← hco]
        exact List.isPrefixOf_iff_prefix.mpr (List.prefix_append _ _)
      rw [hpre]
      simp only [if_true]
      have hdrop : ('[' :: ((("#MATCHED#]").data) ++ x)).drop phChars.length = x := by
        rw [← hco]
        exact List.drop_left phChars x
      rw [hdrop]
      have hx : x.length ≤ f := by
        simp only [List.length_append, ph_len] at hf
        omega
      exact replaceEmptyAux_congr phChars ph_ne f (f + 1) x hx (by omega)
  | cons c a2 ih =>
    intro x fuel ha hf
    cases fuel with
    | zero =>
      exfalso
      simp at hf
    | succ f =>
      rw [List.cons_append, replaceEmptyAux_cons]
      have hpre := not_ph_pre c a2 x ha
      rw [List.cons_append] at hpre
      rw [hpre]
      simp only [Bool.false_eq_true, if_false, List.cons_append, List.cons.injEq, true_and]
      have ha2 : hasSeq phChars a2 = false := by
        simp only [hasSeq, Bool.or_eq_false_iff] at ha
        exact ha.2
      have hf2 : (a2 ++ (phChars ++ x)).length ≤ f := by
        simp only [List.cons_append, List.length_cons] at hf
        omega
      rw [ih x f ha2 hf2]
      have hx : x.length ≤ f := by
        simp only [List.length_append, ph_len] at hf2
        omega
      rw [replaceEmptyAux_congr phChars ph_ne f (f + 1) x hx (by omega)]

theorem replaceEmpty_skip (a x : List Char) (ha : hasSeq phChars a = false) :
    replaceEmpty phChars (a ++ (phChars ++ x)) = a ++ replaceEmpty phChars x := by
  rw [replaceEmpty_eq_aux phChars _ ph_ne ((a ++ (phChars ++ x)).length) le_rfl]
  rw [replaceEmpty_eq_aux phChars x ph_ne ((a ++ (phChars ++ x)).length)
    (by simp [ph_len]; omega)]
  exact replaceEmptyAux_ph_skip a x _ ha le_rfl

theorem replaceEmpty_phRun : ∀ j x, replaceEmpty phChars (phRun j ++ x) = replaceEmpty phChars x := by
  intro j
  induction j with
  | zero => intro x; simp [phRun]
  | succ n ih =>
    intro x
    have hshape : phRun (n + 1) ++ x = [] ++ (phChars ++ (phRun n ++ x)) := by
      simp [phRun]
    rw [hshape, replaceEmpty_skip [] _ (by decide)]
    simpa using ih x

theorem scanAux_ge (tag : List Char) (ae : Bool) :
    ∀ fuel l pos m, m ∈ scanAux tag ae fuel l pos → pos ≤ m.mstart ∧ m.mstart < m.mstop := by
  intro fuel
  induction fuel with
  | zero =>
    intro l pos m hm
    simp [scanAux] at hm
  | succ f ih =>
    intro l pos m hm
    cases l with
    | nil => simp [scanAux] at hm
    | cons c rest =>
      simp only [scanAux] at hm
      split at hm
      · split at hm
        · split at hm
          · have := ih rest (pos + 1) m hm
            omega
          · rcases List.mem_cons.mp hm with heq | htail
            · subst heq
              dsimp only
              omega
            · have := ih _ _ m htail
              omega
        · have := ih rest (pos + 1) m hm
          omega
      · have := ih rest (pos + 1) m hm
        omega

theorem scanAux_chain (tag : List Char) (ae : Bool) :
    ∀ fuel l pos, List.Pairwise (fun m1 m2 => m1.mstop ≤ m2.mstart) (scanAux tag ae fuel l pos) := by
  intro fuel
  induction fuel with
  | zero =>
    intro l pos
    simp [scanAux]
  | succ f ih =>
    intro l pos
    cases l with
    | nil => simp [scanAux]
    | cons c rest =>
      simp only [scanAux]
      split
      · split
        · split
          · exact ih rest (pos + 1)
          · refine List.Pairwise.cons ?_ (ih _ _)
            intro b hb
            have := scanAux_ge tag ae f _ _ b hb
            dsimp only
            omega
        · exact ih rest (pos + 1)
      · exact ih rest (pos + 1)

theorem scanMatches_lt (tag : List Char) (ae : Bool) (text : List Char) :
    ∀ m ∈ scanMatches tag ae text, m.mstart < m.mstop :=
  fun m hm => (scanAux_ge tag ae text.length text 0 m hm).2

theorem mask_eq_remove (text : List Char) (htext : hasSeq phChars text = false) :
    ∀ ms, (∀ m ∈ ms, m.mstart < m.mstop) → ∀ lastEnd,
      replaceEmpty phChars (buildMasked text lastEnd ms) = removeSpans text lastEnd ms := by
  intro ms
  induction ms with
  | nil =>
    intro h lastEnd
    simp only [buildMasked, removeSpans]
    exact replaceEmpty_id phChars _ ph_ne (hasSeq_false_drop phChars text htext lastEnd)
  | cons m ms ih =>
    intro h lastEnd
    have hseg : hasSeq phChars ((text.drop lastEnd).take (m.mstart - lastEnd)) = false :=
      hasSeq_false_slice phChars text htext lastEnd (m.mstart - lastEnd)
    obtain ⟨j, hj⟩ : ∃ j, m.mstop - m.mstart = j + 1 := by
      have := h m (List.mem_cons_self m ms)
      exact ⟨m.mstop - m.mstart - 1, by omega⟩
    simp only [buildMasked, removeSpans, hj]
    have hshape : phRun (j + 1) ++ buildMasked text m.mstop ms =
        phChars ++ (phRun j ++ buildMasked text m.mstop ms) := by
      simp [phRun]
    rw [hshape, replaceEmpty_skip _ _ hseg, replaceEmpty_phRun]
    rw [ih (fun x hx => h x (List.mem_cons_of_mem m hx)) m.mstop]

theorem mem_insertDesc (d : ToolEntry) : ∀ l x, x ∈ insertDesc d l ↔ x = d ∨ x ∈ l := by
  intro l
  induction l with
  | nil => intro x; simp [insertDesc]
  | cons e es ih =>
    intro x
    simp only [insertDesc]
    by_cases h : e.priority < d.priority
    · rw [if_pos h]
      simp only [List.mem_cons, ih]
      tauto
    · rw [if_neg h]
      simp only [List.mem_cons]

theorem insertDesc_pairwise (d : ToolEntry) :
    ∀ l, List.Pairwise (fun a b : ToolEntry => a.priority ≤ b.priority) l →
      List.Pairwise (fun a b : ToolEntry => a.priority ≤ b.priority) (insertDesc d l) := by
  intro l
  induction l with
  | nil => intro h; simp [insertDesc]
  | cons e es ih =>
    intro h
    rcases List.pairwise_cons.mp h with ⟨he, hes⟩
    simp only [insertDesc]
    by_cases hlt : e.priority < d.priority
    · rw [if_pos hlt]
      refine List.pairwise_cons.mpr ⟨?_, ih hes⟩
      intro x hx
      rcases (mem_insertDesc d es x).mp hx with rfl | hmem
      · exact le_of_lt hlt
      · exact he x hmem
    · rw [if_neg hlt]
      refine List.pairwise_cons.mpr ⟨?_, h⟩
      intro x hx
      rcases List.mem_cons.mp hx with rfl | hmem
      · exact not_lt.mp hlt
      · exact le_trans (not_lt.mp hlt) (he x hmem)

theorem sortDescs_pairwise :
    ∀ l, List.Pairwise (fun a b : ToolEntry => a.priority ≤ b.priority) (sortDescs l) := by
  intro l
  induction l with
  | nil => simp [sortDescs]
  | cons d ds ih => exact insertDesc_pairwise d (sortDescs ds) ih

theorem insertDesc_head (d : ToolEntry) :
    ∀ l, (∀ x ∈ l, d.priority ≤ x.priority) → insertDesc d l = d :: l := by
  intro l h
  cases l with
  | nil => rfl
  | cons e es =>
    simp only [insertDesc]
    rw [if_neg (not_lt.mpr (h e (List.mem_cons_self e es)))]

theorem filter_insertDesc (p : ToolEntry → Bool) (d : ToolEntry) :
    ∀ l, List.Pairwise (fun a b : ToolEntry => a.priority ≤ b.priority) l →
      (insertDesc d l).filter p =
        if p d then insertDesc d (l.filter p) else l.filter p := by
  intro l
  induction l with
  | nil =>
    intro h
    simp [insertDesc, List.filter_cons]
  | cons e es ih =>
    intro h
    rcases List.pairwise_cons.mp h with ⟨he, hes⟩
    simp only [insertDesc]
    by_cases hlt : e.priority < d.priority
    · rw [if_pos hlt]
      rw [List.filter_cons, List.filter_cons]
      by_cases hpe : p e
      · simp only [hpe, if_true, ih hes]
        by_cases hd : p d
        · rw [if_pos hd, if_pos hd]
          simp only [insertDesc]
          rw [if_pos hlt]
        · rw [if_neg hd, if_neg hd]
      · simp only [hpe, Bool.false_eq_true, if_false, ih hes]
    · rw [if_neg hlt]
      rw [List.filter_cons]
      by_cases hd : p d
      · rw [if_pos hd, if_pos hd]
        rw [List.filter_cons]
        by_cases hpe : p e
        · simp only [hpe, if_true]
          simp only [insertDesc]
          rw [if_neg hlt]
        · simp only [hpe, Bool.false_eq_true, if_false]
          rw [insertDesc_head]
          intro x hx
          have hxes : x ∈ es := List.mem_of_mem_filter hx
          exact le_trans (not_lt.mp hlt) (he x hxes)
      · rw [if_neg hd, if_neg hd, List.filter_cons]

theorem sortDescs_filter (p : ToolEntry → Bool) :
    ∀ l, sortDescs (l.filter p) = (sortDescs l).filter p := by
  intro l
  induction l with
  | nil => simp [sortDescs]
  | cons d ds ih =>
    rw [List.filter_cons]
    by_cases hd : p d
    · simp only [hd, if_true]
      simp only [sortDescs]
      rw [ih]
      rw [filter_insertDesc p d (sortDescs ds) (sortDescs_pairwise ds), if_pos hd]
    · simp only [hd, Bool.false_eq_true, if_false]
      simp only [sortDescs]
      rw [ih]
      rw [filter_insertDesc p d (sortDescs ds) (sortDescs_pairwise ds), if_neg hd]

theorem extractGo_skipMal : ∀ ds t, extractGo ds t = extractGo (ds.filter notMal) t := by
  intro ds
  induction ds with
  | nil => intro t; simp [extractGo]
  | cons d rest ih =>
    intro t
    rcases d with ⟨nm, fn, pat, pr⟩
    cases pat with
    | malformed =>
      rw [List.filter_cons]
      simp only [notMal, Pattern.isMal, Bool.not_true, Bool.false_eq_true, if_false]
      simp only [extractGo]
      exact ih t
    | marker tag ae =>
      rw [List.filter_cons]
      simp only [notMal, Pattern.isMal, Bool.not_false, if_true]
      simp only [extractGo]
      rw [ih]

theorem enumFrom_idx_ge : ∀ (l : List ToolEntry) (i : Nat) (x : Nat × ToolEntry),
    x ∈ enumFrom i l → i ≤ x.1 := by
  intro l
  induction l with
  | nil => intro i x hx; simp [enumFrom] at hx
  | cons d ds ih =>
    intro i x hx
    rcases List.mem_cons.mp hx with rfl | hmem
    · exact le_refl i
    · have := ih (i + 1) x hmem
      omega

theorem enumFrom_get : ∀ (l : List ToolEntry) (i : Nat) (x : Nat × ToolEntry),
    x ∈ enumFrom i l → ∃ k, x.1 = i + k ∧ l[k]? = some x.2 := by
  intro l
  induction l with
  | nil => intro i x hx; simp [enumFrom] at hx
  | cons d ds ih =>
    intro i x hx
    rcases List.mem_cons.mp hx with rfl | hmem
    · refine ⟨0, ?_, ?_⟩ <;> simp
    · obtain ⟨k, hk1, hk2⟩ := ih (i + 1) x hmem
      refine ⟨k + 1, by omega, ?_⟩
      simpa using hk2

theorem mem_insertDescI (x : Nat × ToolEntry) :
    ∀ l y, y ∈ insertDescI x l ↔ y = x ∨ y ∈ l := by
  intro l
  induction l with
  | nil => intro y; simp [insertDescI]
  | cons e es ih =>
    intro y
    simp only [insertDescI]
    by_cases h : e.2.priority < x.2.priority
    · rw [if_pos h]
      simp only [List.mem_cons, ih]
      tauto
    · rw [if_neg h]
      simp only [List.mem_cons]

theorem mem_sortDescsI : ∀ (l : List (Nat × ToolEntry)) (y : Nat × ToolEntry),
    y ∈ sortDescsI l ↔ y ∈ l := by
  intro l
  induction l with
  | nil => intro y; simp [sortDescsI]
  | cons d ds ih =>
    intro y
    simp only [sortDescsI, mem_insertDescI, ih, List.mem_cons]

theorem insertDescI_lex (x : Nat × ToolEntry) :
    ∀ l, List.Pairwise lexPI l → (∀ y ∈ l, x.1 < y.1) →
      List.Pairwise lexPI (insertDescI x l) := by
  intro l
  induction l with
  | nil =>
    intro hp hidx
    simp [insertDescI]
  | cons e es ih =>
    intro hp hidx
    rcases List.pairwise_cons.mp hp with ⟨he, hes⟩
    simp only [insertDescI]
    by_cases hlt : e.2.priority < x.2.priority
    · rw [if_pos hlt]
      refine List.pairwise_cons.mpr
        ⟨?_, ih hes (fun y hy => hidx y (List.mem_cons_of_mem e hy))⟩
      intro z hz
      rcases (mem_insertDescI x es z).mp hz with rfl | hmem
      · exact Or.inl hlt
      · exact he z hmem
    · rw [if_neg hlt]
      refine List.pairwise_cons.mpr ⟨?_, hp⟩
      intro z hz
      have hxe : x.2.priority ≤ e.2.priority := not_lt.mp hlt
      rcases List.mem_cons.mp hz with rfl | hmem
      · rcases lt_or_eq_of_le hxe with h2 | h2
        · exact Or.inl h2
        · exact Or.inr ⟨h2, hidx z (List.mem_cons_self z es)⟩
      · have hez := he z hmem
        have hxz : x.2.priority ≤ z.2.priority := by
          rcases hez with hcase | ⟨hcase, -⟩
          · exact le_trans hxe (le_of_lt hcase)
          · exact le_trans hxe (le_of_eq hcase)
        rcases lt_or_eq_of_le hxz with h2 | h2
        · exact Or.inl h2
        · exact Or.inr ⟨h2, hidx z (List.mem_cons_of_mem e hmem)⟩

theorem sortDescsI_lex : ∀ (l : List ToolEntry) (i : Nat),
    List.Pairwise lexPI (sortDescsI (enumFrom i l)) := by
  intro l
  induction l with
  | nil => intro i; simp [enumFrom, sortDescsI]
  | cons d ds ih =>
    intro i
    simp only [enumFrom, sortDescsI]
    refine insertDescI_lex (i, d) _ (ih (i + 1)) ?_
    intro y hy
    have hmem : y ∈ enumFrom (i + 1) ds := (mem_sortDescsI _ y).mp hy
    have := enumFrom_idx_ge ds (i + 1) y hmem
    show i < y.1
    omega

theorem insertDescI_map (x : Nat × ToolEntry) :
    ∀ l, (insertDescI x l).map (fun y => y.2) = insertDesc x.2 (l.map (fun y => y.2)) := by
  intro l
  induction l with
  | nil => rfl
  | cons e es ih =>
    simp only [insertDescI, List.map_cons, insertDesc]
    by_cases h : e.2.priority < x.2.priority
    · rw [if_pos h, if_pos h]
      simp only [List.map_cons, ih]
    · rw [if_neg h, if_neg h]
      simp only [List.map_cons]

theorem sortDescsI_map : ∀ (l : List ToolEntry) (i : Nat),
    (sortDescsI (enumFrom i l)).map (fun y => y.2) = sortDescs l := by
  intro l
  induction l with
  | nil => intro i; rfl
  | cons d ds ih =>
    intro i
    simp only [enumFrom, sortDescsI, sortDescs]
    rw [insertDescI_map, ih (i + 1)]

theorem extractGoPI_map :
    ∀ ds t, extractGo (ds.map (fun y => y.2)) t =
      (extractGoPI ds t).map (fun x => (x.1, x.2.1)) := by
  intro ds
  induction ds with
  | nil => intro t; simp [extractGo, extractGoPI]
  | cons d rest ih =>
    intro t
    rcases hd : d with ⟨i, e⟩
    subst hd
    rcases he : e with ⟨nm, fn, pat, pr⟩
    subst he
    cases pat with
    | malformed =>
      simp only [List.map_cons, extractGo, extractGoPI]
      exact ih t
    | marker tag ae =>
      simp only [List.map_cons, extractGo, extractGoPI]
      rw [List.map_append, List.map_map, ih]
      rfl

theorem extractGoPI_mem :
    ∀ ds t x, x ∈ extractGoPI ds t →
      ∃ d, d ∈ ds ∧ x.1 = d.2.name ∧ x.2.2.1 = d.2.priority ∧ x.2.2.2 = d.1 := by
  intro ds
  induction ds with
  | nil => intro t x hx; simp [extractGoPI] at hx
  | cons d rest ih =>
    intro t x hx
    rcases hd : d with ⟨i, e⟩
    subst hd
    rcases he : e with ⟨nm, fn, pat, pr⟩
    subst he
    cases pat with
    | malformed =>
      simp only [extractGoPI] at hx
      obtain ⟨d2, hmem, hprops⟩ := ih t x hx
      exact ⟨d2, List.mem_cons_of_mem _ hmem, hprops⟩
    | marker tag ae =>
      simp only [extractGoPI] at hx
      rcases List.mem_append.mp hx with hmap | hrest
      · obtain ⟨m, hm, heq⟩ := List.mem_map.mp hmap
        refine ⟨(i, ⟨nm, fn, Pattern.marker tag ae, pr⟩),
          List.mem_cons_self _ _, ?_, ?_, ?_⟩ <;> rw [← heq]
      · obtain ⟨d2, hmem, hprops⟩ := ih _ x hrest
        exact ⟨d2, List.mem_cons_of_mem _ hmem, hprops⟩

theorem pairwise_triv {α : Type} (R : α → α → Prop) (h : ∀ a b, R a b) :
    ∀ l : List α, List.Pairwise R l := by
  intro l
  induction l with
  | nil => exact List.Pairwise.nil
  | cons a l ih => exact List.Pairwise.cons (fun b _ => h a b) ih

theorem extractGoPI_pairwise :
    ∀ ds, List.Pairwise lexPI ds → ∀ t,
      List.Pairwise
        (fun x y : String × String × Int × Nat =>
          x.2.2.1 < y.2.2.1 ∨ (x.2.2.1 = y.2.2.1 ∧ x.2.2.2 ≤ y.2.2.2))
        (extractGoPI ds t) := by
  intro ds
  induction ds with
  | nil => intro h t; simp [extractGoPI]
  | cons d rest ih =>
    intro h t
    rcases List.pairwise_cons.mp h with ⟨hd, hrest⟩
    rcases hde : d with ⟨i, e⟩
    subst hde
    rcases he : e with ⟨nm, fn, pat, pr⟩
    subst he
    cases pat with
    | malformed =>
      simp only [extractGoPI]
      exact ih hrest t
    | marker tag ae =>
      simp only [extractGoPI]
      rw [List.pairwise_append]
      refine ⟨?_, ih hrest _, ?_⟩
      · rw [List.pairwise_map]
        exact pairwise_triv _ (fun a b => Or.inr ⟨rfl, le_refl _⟩) _
      · intro a ha b hb
        obtain ⟨m, hm, heq⟩ := List.mem_map.mp ha
        obtain ⟨d2, hmem, hn, hp, hi⟩ := extractGoPI_mem rest _ b hb
        have hlex := hd d2 hmem
        rw [← heq]
        rcases hlex with hl | ⟨hl, hl2⟩
        · exact Or.inl (by rw [hp]; exact hl)
        · exact Or.inr ⟨by rw [hp]; exact hl, by rw [hi]; exact le_of_lt hl2⟩

theorem processToolBatch_fst (reg : List ToolEntry) (r : String) (h : List Msg) :
    (processToolBatch reg r h).1 =
      h ++ (extract_tool_calls reg r.data).map (fun c => toolResultMsg reg c.1 c.2) := by
  simp only [processToolBatch]
  by_cases hc : (extract_tool_calls reg r.data).isEmpty
  · rw [if_pos hc]
    rw [List.isEmpty_iff.mp hc]
    simp
  · rw [if_neg hc]

theorem processToolBatch_true (reg : List ToolEntry) (r : String) (h : List Msg)
    (hne : extract_tool_calls reg r.data ≠ []) :
    processToolBatch reg r h =
      (h ++ (extract_tool_calls reg r.data).map (fun c => toolResultMsg reg c.1 c.2), true) := by
  simp only [processToolBatch]
  rw [if_neg (by simp [List.isEmpty_iff, hne])]

theorem processToolBatch_false (reg : List ToolEntry) (r : String) (h : List Msg)
    (he : extract_tool_calls reg r.data = []) :
    processToolBatch reg r h = (h, false) := by
  simp only [processToolBatch]
  rw [if_pos (by simp [List.isEmpty_iff, he])]

theorem turnLoopFuel_le (backend : List Msg → String) (reg : List ToolEntry) :
    ∀ fuel hist count, (turnLoopFuel backend reg fuel hist count).2 ≤ count + fuel := by
  intro fuel
  induction fuel with
  | zero => intro hist count; simp [turnLoopFuel]
  | succ f ih =>
    intro hist count
    simp only [turnLoopFuel]
    by_cases hb : (processToolBatch reg (backend (toLlm hist))
        (hist ++ [⟨("assistant"), backend (toLlm hist)⟩])).2
    · rw [if_pos hb]
      have := ih (processToolBatch reg (backend (toLlm hist))
        (hist ++ [⟨("assistant"), backend (toLlm hist)⟩])).1 (count + 1)
      omega
    · rw [if_neg hb]
      omega

theorem turnLoopFuel_always (backend : List Msg → String) (reg : List ToolEntry)
    (H : ∀ h : List Msg, extract_tool_calls reg ((backend h).data) ≠ []) :
    ∀ fuel hist count, (turnLoopFuel backend reg fuel hist count).2 = count + fuel := by
  intro fuel
  induction fuel with
  | zero => intro hist count; simp [turnLoopFuel]
  | succ f ih =>
    intro hist count
    simp only [turnLoopFuel]
    have hb := processToolBatch_true reg (backend (toLlm hist))
      (hist ++ [⟨("assistant"), backend (toLlm hist)⟩]) (H (toLlm hist))
    rw [hb]
    simp only [if_true]
    rw [ih]
    omega

theorem turnLoopFuel_prefix (backend : List Msg → String) (reg : List ToolEntry) :
    ∀ fuel hist count, hist <+: (turnLoopFuel backend reg fuel hist count).1 := by
  intro fuel
  induction fuel with
  | zero => intro hist count; exact List.prefix_refl hist
  | succ f ih =>
    intro hist count
    simp only [turnLoopFuel]
    have h1 : hist <+: hist ++ [⟨("assistant"), backend (toLlm hist)⟩] :=
      List.prefix_append _ _
    have h2 : (hist ++ [⟨("assistant"), backend (toLlm hist)⟩]) <+:
        (processToolBatch reg (backend (toLlm hist))
          (hist ++ [⟨("assistant"), backend (toLlm hist)⟩])).1 := by
      rw [processToolBatch_fst]
      exact List.prefix_append _ _
    by_cases hb : (processToolBatch reg (backend (toLlm hist))
        (hist ++ [⟨("assistant"), backend (toLlm hist)⟩])).2
    · rw [if_pos hb]
      exact (h1.trans h2).trans (ih _ (count + 1))
    · rw [if_neg hb]
      exact h1.trans h2

/-- C1 counterexample: with two distinct tools of equal priority (`a` with
tag `A` and `b` with tag `B`, both priority 10, registered in that order) and
the text `[B: x] [A: y]`, extraction returns the `a` call before the `b`
call, although the sole `B` match starts at position 0 of the text and the
sole `A` match starts at position 7; so the extracted sequence is not
ordered by position among matches of tools with equal priority, refuting the
universally quantified ordering stated in C1. -/
theorem C1_counterexample :
    extract_tool_calls [eqAEntry, eqBEntry] (("[B: x] [A: y]").data) =
      [(("a"), ("y")), (("b"), ("x"))] ∧
    eqAEntry.priority = eqBEntry.priority ∧
    scanMatches (("B").data) false (("[B: x] [A: y]").data) = [⟨0, 6, [('x')]⟩] ∧
    scanMatches (("A").data) false (("[B: x] [A: y]").data) = [⟨7, 13, [('y')]⟩] :=
  ⟨by decide, rfl, by decide, by decide⟩

/-- C1 (amended): for every registry and every input text, the sequence
returned by `extract_tool_calls` is ordered by ascending tool priority
first, with ties between distinct tools broken by ascending registration
index — all calls of a lower-priority-number tool precede any call of a
higher-number tool regardless of position, and the calls of equal-priority
tools are grouped by registration order, not interleaved by position: the
output annotated with each producing descriptor's priority and
registration index (`extractPrioIdx`, of which `extract_tool_calls` is the
projection) is pairwise ordered lexicographically by (priority, index),
and each index points at the registry entry bearing the call's tool name
and priority.  Matches of a single tool appear in ascending position order
(the matcher returns non-overlapping, left-to-right spans).  The concrete
scenario holds: `"[OPEN_APP: notepad] and [SEARCH: weather]"` with `app`
at priority 10 and `search` at priority 20 extracts exactly
`[("app", "notepad"), ("search", "weather")]` in that order. -/
theorem C1_ordering_amended :
    (∀ (reg : List ToolEntry) (text : List Char),
        extract_tool_calls reg text = (extractPrioIdx reg text).map (fun x => (x.1, x.2.1)) ∧
        List.Pairwise
          (fun x y : String × String × Int × Nat =>
            x.2.2.1 < y.2.2.1 ∨ (x.2.2.1 = y.2.2.1 ∧ x.2.2.2 ≤ y.2.2.2))
          (extractPrioIdx reg text) ∧
        (∀ x ∈ extractPrioIdx reg text, ∃ d : ToolEntry,
            reg[x.2.2.2]? = some d ∧ x.1 = d.name ∧ x.2.2.1 = d.priority)) ∧
    (∀ (tag : List Char) (ae : Bool) (text : List Char),
        List.Pairwise (fun m1 m2 : REMatch => m1.mstop ≤ m2.mstart) (scanMatches tag ae text)) ∧
    extract_tool_calls [appEntry, searchEntry]
        (("[OPEN_APP: notepad] and [SEARCH: weather]").data) =
      [(("app"), ("notepad")), (("search"), ("weather"))] := by
  refine ⟨fun reg text => ⟨?_, ?_, ?_⟩, fun tag ae text => ?_, by decide⟩
  · show extractGo (sortDescs reg) text = _
    rw [← sortDescsI_map reg 0]
    exact extractGoPI_map (sortDescsI (enumFrom 0 reg)) text
  · exact extractGoPI_pairwise _ (sortDescsI_lex reg 0) text
  · intro x hx
    obtain ⟨d2, hmem, hn, hp, hi⟩ :=
      extractGoPI_mem (sortDescsI (enumFrom 0 reg)) text x hx
    have hmem2 : d2 ∈ enumFrom 0 reg := (mem_sortDescsI _ d2).mp hmem
    obtain ⟨k, hk1, hk2⟩ := enumFrom_get reg 0 d2 hmem2
    refine ⟨d2.2, ?_, hn, hp⟩
    rw [hi, hk1]
    simpa using hk2
  · exact scanAux_chain tag ae text.length text 0

/-- C2 counterexample: for the text `[SE[OPEN_APP: x]ARCH: y]`, processing
the priority-10 `app` descriptor does not leave the working text at its
original length (the claim's equal-length placeholder would force length
preservation): the working text shrinks from 24 to 11 characters, because
line 134 of `tool_registry.py` strips every placeholder token immediately.
Consequently the characters `[SE` and `ARCH: y]` surrounding the claimed
span join into `[SEARCH: y]`, and the lower-priority `search` pattern
matches text that does not form a marker in the original input — its
offsets are inconsistent with the original text, refuting C2. -/
theorem C2_counterexample :
    (maskStep (("OPEN_APP").data) false (("[SE[OPEN_APP: x]ARCH: y]").data)).length ≠
      (("[SE[OPEN_APP: x]ARCH: y]").data).length ∧
    extract_tool_calls [appEntry, searchEntry] (("[SE[OPEN_APP: x]ARCH: y]").data) =
      [(("app"), ("x")), (("search"), ("y"))] :=
  ⟨by decide, by decide⟩

/-- C2 (amended): after a descriptor's matches are processed, each matched
span in the working copy is deleted — replaced by the empty string, not by a
length-preserving placeholder — before the next descriptor is scanned (for
any text that does not itself contain the placeholder token, which the
final `replace` would also delete): the new working text is exactly the
concatenation of the segments outside the matched spans.  Hence a
lower-priority pattern can never match characters already claimed by a
higher-priority descriptor (they are gone), but the offsets of
later-scanned patterns shift and text adjacent to a claimed span can join
into new matches. -/
theorem C2_masking_amended (tag : List Char) (ae : Bool) (text : List Char)
    (h : hasSeq phChars text = false) :
    maskStep tag ae text = removeSpans text 0 (scanMatches tag ae text) := by
  unfold maskStep
  exact mask_eq_remove text h (scanMatches tag ae text) (scanMatches_lt tag ae text) 0

/-- C2 (amended) witness at the counterexample text: the text is free of the
placeholder token, and one `app` masking step deletes the matched span. -/
theorem C2_masking_amended_witness :
    hasSeq phChars (("[SE[OPEN_APP: x]ARCH: y]").data) = false ∧
    maskStep (("OPEN_APP").data) false (("[SE[OPEN_APP: x]ARCH: y]").data) =
      removeSpans (("[SE[OPEN_APP: x]ARCH: y]").data) 0
        (scanMatches (("OPEN_APP").data) false (("[SE[OPEN_APP: x]ARCH: y]").data)) :=
  ⟨by decide, C2_masking_amended (("OPEN_APP").data) false (("[SE[OPEN_APP: x]ARCH: y]").data)
    (by decide)⟩

/-- C8: a malformed pattern for one tool never aborts extraction: for every
registry, inserting a descriptor with a non-compiling pattern anywhere
leaves the extracted calls of every other descriptor unchanged (the failure
is caught per descriptor, contributing no calls and leaving the working
text untouched), and a registry consisting only of the malformed descriptor
extracts nothing. -/
theorem C8_malformed_isolated :
    ∀ (l1 l2 : List ToolEntry) (nm : String) (fn : Handler) (p : Int) (text : List Char),
      extract_tool_calls (l1 ++ (⟨nm, fn, Pattern.malformed, p⟩ :: l2)) text =
        extract_tool_calls (l1 ++ l2) text ∧
      extract_tool_calls [⟨nm, fn, Pattern.malformed, p⟩] text = [] := by
  intro l1 l2 nm fn p text
  constructor
  · unfold extract_tool_calls
    rw [extractGo_skipMal (sortDescs (l1 ++ (⟨nm, fn, Pattern.malformed, p⟩ :: l2))) text]
    rw [extractGo_skipMal (sortDescs (l1 ++ l2)) text]
    rw [← sortDescs_filter, ← sortDescs_filter]
    congr 2
    simp [List.filter_append, List.filter_cons, notMal, Pattern.isMal]
  · simp [extract_tool_calls, sortDescs, insertDesc, extractGo]

theorem turnLoopFuel_succ (backend : List Msg → String) (reg : List ToolEntry)
    (f : Nat) (hist : List Msg) (count : Nat) :
    turnLoopFuel backend reg (f + 1) hist count =
      if (processToolBatch reg (backend (toLlm hist))
            (hist ++ [⟨("assistant"), backend (toLlm hist)⟩])).2 then
        turnLoopFuel backend reg f (processToolBatch reg (backend (toLlm hist))
          (hist ++ [⟨("assistant"), backend (toLlm hist)⟩])).1 (count + 1)
      else ((processToolBatch reg (backend (toLlm hist))
        (hist ++ [⟨("assistant"), backend (toLlm hist)⟩])).1, count) := rfl

/-- C3: within one turn, the loop executes at most
`MAX_CONSECUTIVE_TOOL_CALLS` (15) consecutive tool-execution batches; if the
backend's every response contains at least one tool call, the turn executes
exactly 15 batches and then emits exactly one limit notice; a turn whose
(first) response contains no tool calls executes no batch and emits no
notice. -/
theorem C3_loop_ceiling (backend : List Msg → String) (reg : List ToolEntry)
    (hist : List Msg) (u : String) :
    (processTurn backend reg hist u).2.1 ≤ MAX_CONSECUTIVE_TOOL_CALLS ∧
    ((∀ h : List Msg, extract_tool_calls reg ((backend h).data) ≠ []) →
      (processTurn backend reg hist u).2.1 = MAX_CONSECUTIVE_TOOL_CALLS ∧
      (processTurn backend reg hist u).2.2 = 1) ∧
    (extract_tool_calls reg ((backend (toLlm (hist ++ [⟨("user"), u⟩]))).data) = [] →
      (processTurn backend reg hist u).2.1 = 0 ∧
      (processTurn backend reg hist u).2.2 = 0) := by
  refine ⟨?_, ?_, ?_⟩
  · have h := turnLoopFuel_le backend reg MAX_CONSECUTIVE_TOOL_CALLS
      (hist ++ [⟨("user"), u⟩]) 0
    simpa [processTurn] using h
  · intro H
    have h2 := turnLoopFuel_always backend reg H MAX_CONSECUTIVE_TOOL_CALLS
      (hist ++ [⟨("user"), u⟩]) 0
    refine ⟨by simpa [processTurn] using h2, ?_⟩
    simp only [processTurn]
    rw [h2]
    simp
  · intro hnone
    have hz : (turnLoopFuel backend reg MAX_CONSECUTIVE_TOOL_CALLS
        (hist ++ [⟨("user"), u⟩]) 0).2 = 0 := by
      have h15 : MAX_CONSECUTIVE_TOOL_CALLS = 14 + 1 := rfl
      rw [h15, turnLoopFuel_succ, processToolBatch_false reg _ _ hnone]
      simp
    refine ⟨by simpa [processTurn] using hz, ?_⟩
    simp only [processTurn]
    rw [hz]
    simp [MAX_CONSECUTIVE_TOOL_CALLS]

/-- C3 witness: a scripted backend that always answers `[OPEN_APP: x]`
against the registry containing the `app` tool runs exactly 15 batches in
one turn and emits exactly one limit notice. -/
theorem C3_loop_ceiling_witness :
    (processTurn backendW [appEntry] [] (("hi"))).2.1 = MAX_CONSECUTIVE_TOOL_CALLS ∧
    (processTurn backendW [appEntry] [] (("hi"))).2.2 = 1 :=
  (C3_loop_ceiling backendW [appEntry] [] (("hi"))).2.1
    (fun h => by
      have hb : backendW h = ("[OPEN_APP: x]") := rfl
      rw [hb]
      decide)

/-- C9: within a turn the history is only appended to: a tool batch yields
exactly the input history followed by one tool-result entry per extracted
call, in extraction order; every iteration of the loop extends the history
it was given (the input history is a prefix of the output history, so no
existing entry is removed or modified and the length never decreases); and
the whole turn's final history extends the input history with the user
entry appended first. -/
theorem C9_history_append_only (reg : List ToolEntry) (backend : List Msg → String) :
    (∀ (h : List Msg) (r : String),
        (processToolBatch reg r h).1 =
          h ++ (extract_tool_calls reg r.data).map (fun c => toolResultMsg reg c.1 c.2)) ∧
    (∀ (fuel : Nat) (h : List Msg) (count : Nat),
        h <+: (turnLoopFuel backend reg fuel h count).1) ∧
    (∀ (hist : List Msg) (u : String),
        hist ++ [⟨("user"), u⟩] <+: (processTurn backend reg hist u).1) := by
  refine ⟨fun h r => processToolBatch_fst reg r h, turnLoopFuel_prefix backend reg, ?_⟩
  intro hist u
  simpa [processTurn] using
    turnLoopFuel_prefix backend reg MAX_CONSECUTIVE_TOOL_CALLS (hist ++ [⟨("user"), u⟩]) 0

/-- C4: for the two-argument tools `fs_write` and `fs_find`, `execute`
returns the usage validation error when the argument is absent or contains
no pipe, and the empty-path validation error when the first sub-field is
empty after trimming — in all three cases the result is a fixed error text
independent of the registered handler, so the handler is never invoked —
and when the argument contains a pipe with a non-empty first sub-field the
handler is invoked with exactly the two trimmed sub-fields. -/
theorem C4_two_arg_validation (reg : List ToolEntry) (t : String) (d : ToolEntry)
    (hfind : findTool reg t = some d) (ht : t = ("fs_write") ∨ t = ("fs_find")) :
    execute reg t none = invalidArgsMsg t none ∧
    (∀ raw : String, raw.data.contains '|' = false →
        execute reg t (some raw) = invalidArgsMsg t (some raw)) ∧
    (∀ raw : String, raw.data.contains '|' = true →
        pyStrip (splitOnceChar '|' raw.data).1 = [] →
        execute reg t (some raw) = emptyPathMsg t) ∧
    (∀ raw : String, raw.data.contains '|' = true →
        pyStrip (splitOnceChar '|' raw.data).1 ≠ [] →
        execute reg t (some raw) =
          runHandler t d.fn [(⟨pyStrip (splitOnceChar '|' raw.data).1⟩ : String),
            (⟨pyStrip (splitOnceChar '|' raw.data).2⟩ : String)]) := by
  refine ⟨?_, fun raw hc => ?_, fun raw hc h1 => ?_, fun raw hc h1 => ?_⟩
  · simp only [execute, hfind]
    rw [if_pos ht]
  · simp only [execute, hfind]
    rw [if_pos ht, if_pos hc]
  · simp only [execute, hfind]
    rw [if_pos ht, if_neg (show ¬(raw.data.contains '|' = false) by rw [hc]; decide)]
    rw [if_pos h1]
  · simp only [execute, hfind]
    rw [if_pos ht, if_neg (show ¬(raw.data.contains '|' = false) by rw [hc]; decide)]
    rw [if_neg (show ¬(pyStrip (splitOnceChar '|' raw.data).1 = []) from h1)]

/-- C4 witness: `[FS_WRITE: notes.txt | hello world]`'s raw argument
dispatches to the handler with arg1 `notes.txt` and arg2 `hello world`. -/
theorem C4_two_arg_validation_witness :
    execute [fsWriteEntry] ("fs_write") (some ("notes.txt | hello world")) =
      runHandler ("fs_write") fsWriteEntry.fn [("notes.txt"), ("hello world")] := by
  have h := (C4_two_arg_validation [fsWriteEntry] ("fs_write") fsWriteEntry rfl
    (Or.inl rfl)).2.2.2 ("notes.txt | hello world") (by decide) (by decide)
  rw [h]
  decide

/-- C5: if a registered tool's handler raises, the exception is caught at
the dispatcher boundary: `execute` returns the error text naming the
failing tool (for every single-argument invocation that reaches the
handler, and for every well-formed two-argument invocation), and it never
propagates; the loop then appends the returned text as an ordinary
tool-result entry and, having seen tool calls, runs another iteration that
queries the model again. -/
theorem C5_handler_exception (reg : List ToolEntry) (t : String) (d : ToolEntry)
    (hfind : findTool reg t = some d) (hraise : ∀ a, d.fn a = HandlerRes.raised) :
    (t ≠ ("fs_write") → t ≠ ("fs_find") → ∀ s : String,
        execute reg t (some s) = errCaught t) ∧
    (∀ raw : String, (t = ("fs_write") ∨ t = ("fs_find")) →
        raw.data.contains '|' = true →
        pyStrip (splitOnceChar '|' raw.data).1 ≠ [] →
        execute reg t (some raw) = errCaught t) ∧
    (∀ (h : List Msg) (r : String), extract_tool_calls reg r.data ≠ [] →
        processToolBatch reg r h =
          (h ++ (extract_tool_calls reg r.data).map (fun c => toolResultMsg reg c.1 c.2), true)) ∧
    (∀ (backend : List Msg → String) (fuel : Nat) (hist : List Msg) (count : Nat),
        extract_tool_calls reg ((backend (toLlm hist)).data) ≠ [] →
        turnLoopFuel backend reg (fuel + 1) hist count =
          turnLoopFuel backend reg fuel
            ((processToolBatch reg (backend (toLlm hist))
              (hist ++ [⟨("assistant"), backend (toLlm hist)⟩])).1) (count + 1)) := by
  refine ⟨fun h1 h2 s => ?_, fun raw htf hc hp => ?_, fun h r hne => ?_,
    fun backend fuel hist count hne => ?_⟩
  · simp only [execute, hfind]
    rw [if_neg (not_or.mpr ⟨h1, h2⟩), if_neg (by simp)]
    simp [runHandler, hraise]
  · simp only [execute, hfind]
    rw [if_pos htf, if_neg (show ¬(raw.data.contains '|' = false) by rw [hc]; decide)]
    rw [if_neg (show ¬(pyStrip (splitOnceChar '|' raw.data).1 = []) from hp)]
    simp [runHandler, hraise]
  · exact processToolBatch_true reg r h hne
  · rw [turnLoopFuel_succ, processToolBatch_true reg _ _ hne]
    simp

/-- C5 witness: the `app` tool with an always-raising handler yields the
caught-exception error text naming `app`. -/
theorem C5_handler_exception_witness :
    execute [raiseEntry] ("app") (some ("x")) = errCaught ("app") :=
  (C5_handler_exception [raiseEntry] ("app") raiseEntry rfl (fun a => rfl)).1
    (by decide) (by decide) ("x")

/-- C6: single-argument tools receive the raw argument unchanged; `sysinfo`
receives the default `basic` when its argument is absent or empty; every
other single-argument tool returns the missing-argument validation error on
an absent argument, without invoking its handler (the result is a fixed
text independent of the handler). -/
theorem C6_single_arg (reg : List ToolEntry) (t : String) (d : ToolEntry)
    (hfind : findTool reg t = some d) (h1 : t ≠ ("fs_write")) (h2 : t ≠ ("fs_find")) :
    (t = ("sysinfo") →
        execute reg t none = runHandler t d.fn [("basic")] ∧
        execute reg t (some ("")) = runHandler t d.fn [("basic")] ∧
        ∀ s : String, s ≠ ("") → execute reg t (some s) = runHandler t d.fn [s]) ∧
    (t ≠ ("sysinfo") →
        execute reg t none = missingArgMsg t ∧
        ∀ s : String, execute reg t (some s) = runHandler t d.fn [s]) := by
  constructor
  · rintro rfl
    refine ⟨?_, ?_, fun s hs => ?_⟩
    · simp only [execute, hfind]
      rfl
    · simp only [execute, hfind]
      rfl
    · simp only [execute, hfind]
      rw [if_neg (by decide)]
      simp [hs]
  · intro hs
    refine ⟨?_, fun s => ?_⟩
    · simp only [execute, hfind]
      rw [if_neg (not_or.mpr ⟨h1, h2⟩)]
      simp [hs]
    · simp only [execute, hfind]
      rw [if_neg (not_or.mpr ⟨h1, h2⟩)]
      simp [hs]

/-- C6 witness: `sysinfo` with an absent argument is dispatched with the
default argument `basic`. -/
theorem C6_single_arg_witness :
    execute [sysEntry] ("sysinfo") none = runHandler ("sysinfo") sysEntry.fn [("basic")] :=
  ((C6_single_arg [sysEntry] ("sysinfo") sysEntry rfl (by decide) (by decide)).1 rfl).1

/-- C7: for every tool name not present in the registry and every argument,
`execute` returns the descriptive unknown-tool error text; it is a total
function of its inputs, raises nothing, and the result does not depend on
any handler, so none is invoked. -/
theorem C7_unknown_tool (reg : List ToolEntry) (t : String) (a : Option String)
    (hfind : findTool reg t = none) : execute reg t a = unknownToolMsg t := by
  simp [execute, hfind]

/-- C7 witness: an unregistered tool name yields the unknown-tool text. -/
theorem C7_unknown_tool_witness :
    execute [] ("zap") (some ("x")) = unknownToolMsg ("zap") :=
  C7_unknown_tool [] ("zap") (some ("x")) rfl

/-- C10: for every registered single-argument tool other than `sysinfo`, a
present argument — including the empty string — is always passed through to
the handler (the missing-argument branch is taken only when the argument is
`None`); only an absent argument yields the missing-argument validation
error.  Extraction always produces a string argument (possibly empty), and
the loop invokes `execute` with `some` of it (see `processToolBatch` and
`toolResultMsg`), so the missing-argument branch is unreachable from
extraction output. -/
theorem C10_empty_arg_reaches_handler (reg : List ToolEntry) (t : String) (d : ToolEntry)
    (hfind : findTool reg t = some d) (h1 : t ≠ ("fs_write")) (h2 : t ≠ ("fs_find"))
    (h3 : t ≠ ("sysinfo")) :
    (∀ s : String, execute reg t (some s) = runHandler t d.fn [s]) ∧
    execute reg t none = missingArgMsg t := by
  refine ⟨fun s => ?_, ?_⟩
  · simp only [execute, hfind]
    rw [if_neg (not_or.mpr ⟨h1, h2⟩)]
    simp [h3]
  · simp only [execute, hfind]
    rw [if_neg (not_or.mpr ⟨h1, h2⟩)]
    simp [h3]

/-- C10 witness: the `email` tool with an empty-string argument dispatches
to its handler with the empty string, while an absent argument yields the
missing-argument error. -/
theorem C10_empty_arg_witness :
    execute [echoEntry] ("email") (some ("")) = runHandler ("email") echoEntry.fn [("")] ∧
    execute [echoEntry] ("email") none = missingArgMsg ("email") :=
  ⟨(C10_empty_arg_reaches_handler [echoEntry] ("email") echoEntry rfl (by decide) (by decide)
      (by decide)).1 (("")),
   (C10_empty_arg_reaches_handler [echoEntry] ("email") echoEntry rfl (by decide) (by decide)
      (by decide)).2⟩
